import Mathlib

/-!
Verification of the `examples` programs of uchen-ml/codeart-binexplore.

The repository holds three C++ source files:
* `examples/src/vector.h` — a `Vector` class over `float` with `operator+=`
  (in-place elementwise addition) and a by-value `operator+`;
* `examples/src/mmul.cc` — a free function `binexplore::mul` computing the
  product of two `binexplore::Matrix` values by the classic triple loop
  (the `Matrix` accessors themselves live behind a pimpl whose definition is
  not part of the repository; their behaviour is modelled from the spec);
* `examples/src/main.cc` — a demo `main` printing the sum of two fixed vectors.

The element type is C++ `float`, i.e. IEEE-754 binary32.  We model binary32
exactly: a finite float is represented by the rational number it denotes,
rounding is round-to-nearest, ties-to-even, and infinities and NaN are
explicit constructors.  The sign of a floating-point zero is not tracked:
`+0` and `-0` are observationally equal under every operation and comparison
exercised by this code, so both are modelled by `finite 0`; all NaN payloads
are collapsed into the single constructor `nan`.
-/

namespace binexplore

/-- An IEEE-754 binary32 value: a finite value (represented exactly by the
rational it denotes, with the two signed zeros collapsed into `finite 0`),
an infinity with its sign (`neg = true` for `-∞`), or NaN (all payloads
collapsed). -/
inductive Fp32 where
  | finite (q : ℚ)
  | inf (neg : Bool)
  | nan
deriving DecidableEq, Repr

/-- Fuel-driven base-2 logarithm on naturals: `natLog2Go fuel m` is
`⌊log₂ m⌋` for `1 ≤ m ≤ 2 ^ fuel`-ish usage; the fuel is always passed as
`m` itself, which suffices since `⌊log₂ m⌋ < m` for `m ≥ 1`. -/
def natLog2Go : Nat → Nat → Nat
  | 0, _ => 0
  | fuel + 1, m => if m ≤ 1 then 0 else natLog2Go fuel (m / 2) + 1

/-- Base-2 logarithm on naturals, `⌊log₂ n⌋` (and `0` for `n ≤ 1`),
written with structural fuel recursion so that it evaluates inside the
kernel. -/
def natLog2 (n : Nat) : Nat := natLog2Go n n

/-- Binade of a positive rational: the unique `e` with `2 ^ e ≤ a < 2 ^ (e+1)`
(meaningful only for `0 < a`).  For `a ≥ 1` this is `⌊log₂ ⌊a⌋⌋`; for
`0 < a < 1` it is computed from `⌈1 / a⌉`. -/
def qlog2 (a : ℚ) : Int :=
  let p := a.num.toNat
  let d := a.den
  if d ≤ p then natLog2 (p / d)
  else -(natLog2 ((d + p - 1) / p - 1) : Int) - 1

/-- Integer power of two as a rational, `2 ^ e` for `e : ℤ`. -/
def pow2 (e : Int) : ℚ :=
  if 0 ≤ e then ((2 ^ e.toNat : Nat) : ℚ) else ((2 ^ (-e).toNat : Nat) : ℚ)⁻¹

/-- Negation of a binary32 value (exact in IEEE-754). -/
def Fp32.neg : Fp32 → Fp32
  | .finite q => .finite (-q)
  | .inf s => .inf (!s)
  | .nan => .nan

/-- Round a positive rational to binary32, round-to-nearest ties-to-even:
clamp the binade exponent at `-126` (subnormal range), scale by the ulp
`2 ^ (e - 23)`, round the scaled mantissa to an integer with ties going to
the even integer, and overflow to `+∞` at `2 ^ 128`. -/
def roundPos (a : ℚ) : Fp32 :=
  let e := max (qlog2 a) (-126)
  let ulp := pow2 (e - 23)
  let m := a / ulp
  let fl : Int := m.num / (m.den : Int)
  let n : Int :=
    if m - (fl : ℚ) < 1 / 2 then fl
    else if (1 : ℚ) / 2 < m - (fl : ℚ) then fl + 1
    else if fl % 2 = 0 then fl else fl + 1
  let r : ℚ := (n : ℚ) * ulp
  if pow2 128 ≤ r then .inf false else .finite r

/-- Round any rational to binary32 (round-to-nearest, ties-to-even);
negative inputs round by symmetry of the rounding mode. -/
def roundQ (q : ℚ) : Fp32 :=
  if q = 0 then .finite 0
  else if 0 < q then roundPos q
  else Fp32.neg (roundPos (-q))

/-- IEEE-754 binary32 addition: NaN is absorbing, opposite infinities give
NaN, an infinity absorbs finite values, and finite values are added exactly
and then rounded. -/
def Fp32.add : Fp32 → Fp32 → Fp32
  | .nan, _ => .nan
  | _, .nan => .nan
  | .inf s, .inf t => if s = t then .inf s else .nan
  | .inf s, .finite _ => .inf s
  | .finite _, .inf t => .inf t
  | .finite a, .finite b => roundQ (a + b)

/-- IEEE-754 binary32 multiplication: NaN is absorbing, `∞ · 0` is NaN,
infinities multiply by sign, and finite values are multiplied exactly and
then rounded. -/
def Fp32.mul : Fp32 → Fp32 → Fp32
  | .nan, _ => .nan
  | _, .nan => .nan
  | .inf s, .inf t => .inf (s != t)
  | .inf s, .finite b => if b = 0 then .nan else if b < 0 then .inf (!s) else .inf s
  | .finite a, .inf t => if a = 0 then .nan else if a < 0 then .inf (!t) else .inf t
  | .finite a, .finite b => roundQ (a * b)

instance : Zero Fp32 := ⟨.finite 0⟩

instance : One Fp32 := ⟨.finite 1⟩

instance : Add Fp32 := ⟨Fp32.add⟩

instance : Mul Fp32 := ⟨Fp32.mul⟩

/-- A value is a representable finite binary32 value: a finite value fixed
by rounding.  Infinities and NaN are not `isRep`. -/
def Fp32.isRep : Fp32 → Prop
  | .finite q => roundQ q = .finite q
  | .inf _ => False
  | .nan => False

instance (x : Fp32) : Decidable x.isRep :=
  match x with
  | .finite q => inferInstanceAs (Decidable (roundQ q = .finite q))
  | .inf _ => .isFalse fun h => h
  | .nan => .isFalse fun h => h

/-- A value is finite (neither an infinity nor NaN). -/
def Fp32.isFinite : Fp32 → Prop
  | .finite _ => True
  | .inf _ => False
  | .nan => False

instance (x : Fp32) : Decidable x.isFinite :=
  match x with
  | .finite _ => .isTrue trivial
  | .inf _ => .isFalse fun h => h
  | .nan => .isFalse fun h => h

theorem Fp32.zero_def : (0 : Fp32) = .finite 0 := rfl

theorem Fp32.one_def : (1 : Fp32) = .finite 1 := rfl

theorem Fp32.roundQ_zero : roundQ 0 = .finite 0 := rfl

/-- Binary32 addition is commutative (exactly, also on infinities and NaN,
since all NaN payloads are identified). -/
theorem Fp32.add_comm (x y : Fp32) : x + y = y + x := by
  show x.add y = y.add x
  cases x with
  | finite a =>
    cases y with
    | finite b => show roundQ (a + b) = roundQ (b + a); rw [Rat.add_comm]
    | inf t => rfl
    | nan => rfl
  | inf s =>
    cases y with
    | finite b => rfl
    | inf t => cases s <;> cases t <;> rfl
    | nan => rfl
  | nan => cases y <;> rfl

/-- Multiplying a representable finite value by `1.0f` is exact. -/
theorem Fp32.mul_one_rep (x : Fp32) (h : x.isRep) : x * 1 = x := by
  cases x with
  | finite q => show roundQ (q * 1) = .finite q; rw [Rat.mul_one]; exact h
  | inf s => exact absurd h (fun hf => hf)
  | nan => exact absurd h (fun hf => hf)

/-- Multiplying a finite value by `0.0f` gives (a) zero. -/
theorem Fp32.mul_zero_fin (x : Fp32) (h : x.isFinite) : x * 0 = 0 := by
  cases x with
  | finite q => show roundQ (q * 0) = .finite 0; rw [Rat.mul_zero]; rfl
  | inf s => exact absurd h (fun hf => hf)
  | nan => exact absurd h (fun hf => hf)

/-- Adding `0.0f` to a representable value on the left is exact. -/
theorem Fp32.zero_add_rep (x : Fp32) (h : x.isRep) : 0 + x = x := by
  cases x with
  | finite q => show roundQ (0 + q) = .finite q; rw [Rat.zero_add]; exact h
  | inf s => rfl
  | nan => rfl

/-- Adding `0.0f` to a representable value on the right is exact. -/
theorem Fp32.add_zero_rep (x : Fp32) (h : x.isRep) : x + 0 = x := by
  cases x with
  | finite q => show roundQ (q + 0) = .finite q; rw [Rat.add_zero]; exact h
  | inf s => rfl
  | nan => rfl

/-- A representable value is finite. -/
theorem Fp32.isRep.isFinite {x : Fp32} (h : x.isRep) : x.isFinite := by
  cases x with
  | finite q => trivial
  | inf s => exact h
  | nan => exact h

/-- Model of the `Vector` class of `examples/src/vector.h` (the source class
is in the global namespace): it owns a `std::vector<float> data_`, created
from a braced literal list, so its value is the list of its elements. -/
structure Vector (α : Type) where
  data : List α
deriving DecidableEq, Repr

/-- Model of `Vector::operator+=` (vector.h lines 12-17): the loop
`for i in [0, data_.size()): data_[i] += rhs.data_[i]`, returning the final
value of `*this`.  Every subscript is modelled as a checked read, `none`
standing for the out-of-bounds access that is undefined behavior in the
C++ source. -/
def Vector.plusEq [Add α] (a b : Vector α) : Option (Vector α) :=
  (List.range a.data.length).foldl
    (fun ov i => do
      let v ← ov
      let x ← v.data[i]?
      let y ← b.data[i]?
      some ⟨v.data.set i (x + y)⟩)
    (some a)

/-- Model of the free `operator+` (vector.h line 23):
`Vector operator+(Vector lhs, const Vector &rhs) { return lhs += rhs; }`.
`lhs` is passed by value, so `+=` runs on a copy and the result is that
copy's final value; the operands themselves are untouched (see the heap
model below for the frame property). -/
def Vector.add [Add α] (a b : Vector α) : Option (Vector α) :=
  a.plusEq b

/-- The `+=` loop, on operands whose lengths satisfy
`a.length ≤ b.length`, never goes out of bounds and computes the
elementwise sum (which has the length of `a`). -/
theorem Vector.plusEq_eq_zipWith [Add α] (a b : Vector α)
    (h : a.data.length ≤ b.data.length) :
    a.plusEq b = some ⟨List.zipWith (fun x y => x + y) a.data b.data⟩ := by
  have key : ∀ n, n ≤ a.data.length →
      ∃ v : Vector α,
        (List.range n).foldl
          (fun ov i => do
            let v ← ov
            let x ← v.data[i]?
            let y ← b.data[i]?
            some ⟨v.data.set i (x + y)⟩)
          (some a) = some v ∧
        v.data.length = a.data.length ∧
        (∀ i : Nat, i < n →
          v.data[i]? = (List.zipWith (fun x y => x + y) a.data b.data)[i]?) ∧
        (∀ i : Nat, n ≤ i → v.data[i]? = a.data[i]?) := by
    intro n
    induction n with
    | zero =>
      intro _
      exact ⟨a, rfl, rfl, fun i hi => absurd hi (Nat.not_lt_zero i),
        fun i _ => rfl⟩
    | succ n ih =>
      intro hn
      obtain ⟨v, hv, hlen, hlo, hhi⟩ := ih (Nat.le_of_succ_le hn)
      have hna : n < a.data.length := Nat.lt_of_succ_le hn
      have hnb : n < b.data.length := Nat.lt_of_lt_of_le hna h
      have hnv : n < v.data.length := hlen ▸ hna
      have hx : v.data[n]? = some a.data[n] := by
        rw [hhi n (Nat.le_refl n)]
        exact List.getElem?_eq_getElem hna
      have hy : b.data[n]? = some b.data[n] := List.getElem?_eq_getElem hnb
      refine ⟨⟨v.data.set n (a.data[n] + b.data[n])⟩, ?_, ?_, ?_, ?_⟩
      · rw [List.range_succ, List.foldl_append, hv]
        simp only [List.foldl_cons, List.foldl_nil, Option.bind_eq_bind,
          Option.some_bind, hx, hy]
      · simpa using hlen
      · intro i hi
        rcases Nat.lt_succ_iff_lt_or_eq.mp hi with hi' | hi'
        · rw [List.getElem?_set_ne (by omega), hlo i hi']
        · subst hi'
          rw [List.getElem?_set_self hnv]
          rw [List.getElem?_zipWith_eq_some.mpr]
          exact ⟨a.data[i], b.data[i], List.getElem?_eq_getElem hna,
            List.getElem?_eq_getElem hnb, rfl⟩
      · intro i hi
        rw [List.getElem?_set_ne (by omega), hhi i (by omega)]
  obtain ⟨v, hv, hlen, hlo, hhi⟩ := key a.data.length (Nat.le_refl _)
  have hdata : v.data = List.zipWith (fun x y => x + y) a.data b.data := by
    apply List.ext_getElem?
    intro i
    by_cases hi : i < a.data.length
    · exact hlo i hi
    · rw [hhi i (Nat.le_of_not_lt hi)]
      rw [List.getElem?_eq_none (Nat.le_of_not_lt hi),
        List.getElem?_eq_none]
      rw [List.length_zipWith]
      omega
  rw [Vector.plusEq, hv]
  cases v
  simp only [Vector.mk.injEq] at hdata ⊢
  exact congrArg some (congrArg Vector.mk hdata)

/-- C2: for every pair of vectors `a, b` with `a.length == b.length`,
`add(a, b)` succeeds and element `i` of the result is `a[i] + b[i]` for
every `i < a.length`; in particular `add([1,2,3], [4,5,6]) = [5,7,9]`
(exactly, these values being representable). -/
theorem C2_add_elementwise :
    (∀ (a b : Vector Fp32) (h : a.data.length = b.data.length),
      ∃ r : Vector Fp32, a.add b = some r ∧
        ∀ (i : Nat) (hi : i < a.data.length),
          r.data[i]? = some (a.data[i] + b.data[i])) ∧
    Vector.add (⟨[.finite 1, .finite 2, .finite 3]⟩ : Vector Fp32)
        ⟨[.finite 4, .finite 5, .finite 6]⟩ =
      some ⟨[.finite 5, .finite 7, .finite 9]⟩ := by
  constructor
  · intro a b h
    refine ⟨⟨List.zipWith (fun x y => x + y) a.data b.data⟩,
      Vector.plusEq_eq_zipWith a b h.le, ?_⟩
    intro i hi
    exact List.getElem?_zipWith_eq_some.mpr
      ⟨a.data[i], b.data[i], List.getElem?_eq_getElem hi,
        List.getElem?_eq_getElem (by omega), rfl⟩
  · with_unfolding_all rfl

theorem C2_add_elementwise_witness :
    (Vector.add (⟨[.finite 1, .finite 2, .finite 3]⟩ : Vector Fp32)
      ⟨[.finite 4, .finite 5, .finite 6]⟩).isSome = true := by
  obtain ⟨r, hr, hcell⟩ := C2_add_elementwise.1
    ⟨[.finite 1, .finite 2, .finite 3]⟩ ⟨[.finite 4, .finite 5, .finite 6]⟩
    rfl
  rw [hr]
  rfl

/-- C7: vector addition is commutative for equal-length vectors of floats
(IEEE-754 addition is commutative, and all NaNs are identified in the
model). -/
theorem C7_add_commutative :
    ∀ (a b : Vector Fp32), a.data.length = b.data.length →
      a.add b = b.add a := by
  intro a b h
  rw [Vector.add, Vector.add, Vector.plusEq_eq_zipWith a b h.le,
    Vector.plusEq_eq_zipWith b a h.ge]
  exact congrArg some (congrArg Vector.mk
    (List.zipWith_comm_of_comm (fun x y => x + y) Fp32.add_comm
      a.data b.data))

theorem C7_add_commutative_witness :
    Vector.add (⟨[.finite 1, .nan, .inf false]⟩ : Vector Fp32)
        ⟨[.finite 2, .finite 3, .inf true]⟩ =
      Vector.add ⟨[.finite 2, .finite 3, .inf true]⟩
        ⟨[.finite 1, .nan, .inf false]⟩ :=
  C7_add_commutative ⟨[.finite 1, .nan, .inf false]⟩
    ⟨[.finite 2, .finite 3, .inf true]⟩ rfl

/-- C10: for vectors with `a.length ≤ b.length`, `add(a, b)` reads only
in-bounds indices of both operands (modelled by the checked reads all
succeeding) and returns a vector of length `a.length`; in particular adding
two zero-length vectors yields a zero-length vector. -/
theorem C10_add_safety :
    (∀ (a b : Vector Fp32), a.data.length ≤ b.data.length →
      ∃ r : Vector Fp32, a.add b = some r ∧
        r.data.length = a.data.length) ∧
    Vector.add (⟨[]⟩ : Vector Fp32) ⟨[]⟩ = some ⟨[]⟩ := by
  constructor
  · intro a b h
    refine ⟨⟨List.zipWith (fun x y => x + y) a.data b.data⟩,
      Vector.plusEq_eq_zipWith a b h, ?_⟩
    rw [List.length_zipWith]
    omega
  · with_unfolding_all rfl

theorem C10_add_safety_witness :
    (Vector.add (⟨[.finite 1]⟩ : Vector Fp32)
      ⟨[.finite 2, .finite 3]⟩).isSome = true := by
  obtain ⟨r, hr, hlen⟩ := C10_add_safety.1 ⟨[.finite 1]⟩
    ⟨[.finite 2, .finite 3]⟩ (by decide)
  rw [hr]
  rfl

/-- Modelled from the spec: the class `binexplore::Matrix` of
`examples/src/mmul.cc` is declared with `get_height`, `get_width`,
`get(i, j)` and `set(i, j, value)`, but its `MatrixPimpl` storage is not
part of the repository.  Per spec §3/§9 it is a `height × width` grid of
floats in a single contiguous buffer indexed by `row * width + col`, so a
matrix value is its two dimensions and that flat buffer. -/
structure Matrix (α : Type) where
  height : Nat
  width : Nat
  data : List α
deriving DecidableEq, Repr

/-- Modelled from the spec: the constructor `Matrix(height, width)` (not in
src/) allocates the `height * width` buffer.  Its initial contents are
irrelevant to `mul`, which writes every cell of the result before it is
read; they are modelled as zeros. -/
def Matrix.make (α : Type) [Zero α] (height width : Nat) : Matrix α :=
  ⟨height, width, List.replicate (height * width) 0⟩

/-- Modelled from the spec: `Matrix::get(i, j)` reads the buffer at
`i * width + j` (spec §9).  Out-of-bounds access is undefined behavior in
the reference; it is modelled as the default value `0`, and every theorem
below reads only in-bounds cells. -/
def Matrix.get [Zero α] (M : Matrix α) (i j : Nat) : α :=
  M.data.getD (i * M.width + j) 0

/-- Modelled from the spec: `Matrix::set(i, j, value)` writes the buffer at
`i * width + j` (out-of-bounds writes, undefined in the reference, are
modelled as no-ops via `List.set`). -/
def Matrix.set [Zero α] (M : Matrix α) (i j : Nat) (v : α) : Matrix α :=
  { M with data := M.data.set (i * M.width + j) v }

/-- The inner accumulation loop of `binexplore::mul` (mmul.cc lines 24-27):
`float sum = 0.0f; for k in [0, lhs.get_width()): sum += lhs.get(i,k) * rhs.get(k,j)`,
in exactly that order. -/
def dotAcc [Zero α] [Add α] [Mul α] (lhs rhs : Matrix α) (i j : Nat) : α :=
  (List.range lhs.width).foldl (fun sum k => sum + lhs.get i k * rhs.get k j) 0

/-- Model of `binexplore::mul` (mmul.cc lines 20-32): allocate
`Matrix result(lhs.get_height(), rhs.get_width())`, then for each
`i < lhs.get_height()` and `j < rhs.get_width()` store the accumulated dot
product into `result.set(i, j, sum)`. -/
def mul [Zero α] [Add α] [Mul α] (lhs rhs : Matrix α) : Matrix α :=
  (List.range lhs.height).foldl
    (fun acc i =>
      (List.range rhs.width).foldl
        (fun acc2 j => acc2.set i j (dotAcc lhs rhs i j))
        acc)
    (Matrix.make α lhs.height rhs.width)

theorem Matrix.set_height [Zero α] (M : Matrix α) (i j : Nat) (v : α) :
    (M.set i j v).height = M.height := rfl

theorem Matrix.set_width [Zero α] (M : Matrix α) (i j : Nat) (v : α) :
    (M.set i j v).width = M.width := rfl

theorem Matrix.set_data_length [Zero α] (M : Matrix α) (i j : Nat) (v : α) :
    (M.set i j v).data.length = M.data.length := by
  simp [Matrix.set]

/-- The flat index of an in-bounds cell is in bounds for the
`height * width` buffer. -/
theorem flatIdx_lt {i j h w : Nat} (hi : i < h) (hj : j < w) :
    i * w + j < h * w :=
  calc i * w + j < i * w + w := Nat.add_lt_add_left hj _
    _ = (i + 1) * w := (Nat.succ_mul i w).symm
    _ ≤ h * w := Nat.mul_le_mul_right w hi

/-- Row recovery: dividing a flat index by the width gives the row. -/
theorem flatIdx_div (i : Nat) {j w : Nat} (hj : j < w) :
    (i * w + j) / w = i := by
  have hw : 0 < w := Nat.lt_of_le_of_lt (Nat.zero_le j) hj
  rw [Nat.mul_comm i w, Nat.mul_add_div hw, Nat.div_eq_of_lt hj,
    Nat.add_zero]

/-- Column recovery: a flat index modulo the width gives the column. -/
theorem flatIdx_mod (i : Nat) {j w : Nat} (hj : j < w) :
    (i * w + j) % w = j := by
  rw [Nat.mul_comm i w, Nat.mul_add_mod, Nat.mod_eq_of_lt hj]

/-- Distinct in-bounds cells have distinct flat indices. -/
theorem flatIdx_inj {i i' j j' w : Nat} (hj : j < w) (hj' : j' < w)
    (hne : ¬(i = i' ∧ j = j')) : i * w + j ≠ i' * w + j' := by
  intro he
  have h1 := flatIdx_div i hj
  have h2 := flatIdx_mod i hj
  rw [he] at h1 h2
  exact hne ⟨h1.symm.trans (flatIdx_div i' hj'),
    h2.symm.trans (flatIdx_mod i' hj')⟩

/-- Reading back the cell just written by `set` (the buffer being of the
invariant length `height * width` and the cell in bounds). -/
theorem Matrix.get_set_self [Zero α] (M : Matrix α) (i j : Nat) (v : α)
    (hlen : M.data.length = M.height * M.width)
    (hi : i < M.height) (hj : j < M.width) :
    (M.set i j v).get i j = v := by
  show (M.data.set (i * M.width + j) v).getD (i * M.width + j) 0 = v
  rw [List.getD_eq_getElem?_getD,
    List.getElem?_set_self (by rw [hlen]; exact flatIdx_lt hi hj)]
  rfl

/-- `set` leaves every other (column-in-bounds) cell unchanged. -/
theorem Matrix.get_set_ne [Zero α] (M : Matrix α) {i i' j j' : Nat} (v : α)
    (hj : j < M.width) (hj' : j' < M.width) (hne : ¬(i = i' ∧ j = j')) :
    (M.set i j v).get i' j' = M.get i' j' := by
  show (M.data.set (i * M.width + j) v).getD (i' * M.width + j') 0 =
    M.data.getD (i' * M.width + j') 0
  rw [List.getD_eq_getElem?_getD, List.getElem?_set_ne (flatIdx_inj hj hj' hne),
    ← List.getD_eq_getElem?_getD]

/-- The inner column loop of `mul` writes row `i`: after running the loop
for the first `n` columns on an accumulator of the right shape, the cells
`(i, j)` with `j < n` hold their dot products and every other cell is
unchanged. -/
theorem mulInner_spec [Zero α] [Add α] [Mul α] (lhs rhs : Matrix α)
    (i : Nat) (hi : i < lhs.height) (acc : Matrix α)
    (hh : acc.height = lhs.height) (hw : acc.width = rhs.width)
    (hlen : acc.data.length = acc.height * acc.width) :
    ∀ n, n ≤ rhs.width →
      ((List.range n).foldl
          (fun acc2 j => acc2.set i j (dotAcc lhs rhs i j)) acc).height =
        acc.height ∧
      ((List.range n).foldl
          (fun acc2 j => acc2.set i j (dotAcc lhs rhs i j)) acc).width =
        acc.width ∧
      ((List.range n).foldl
          (fun acc2 j => acc2.set i j (dotAcc lhs rhs i j)) acc).data.length =
        acc.data.length ∧
      ∀ i' j', j' < acc.width →
        ((List.range n).foldl
            (fun acc2 j => acc2.set i j (dotAcc lhs rhs i j)) acc).get i' j' =
          if i' = i ∧ j' < n then dotAcc lhs rhs i j' else acc.get i' j' := by
  intro n
  induction n with
  | zero =>
    intro _
    refine ⟨rfl, rfl, rfl, ?_⟩
    intro i' j' hj'
    simp
  | succ n ih =>
    intro hn
    obtain ⟨rh, rw', rlen, rget⟩ := ih (Nat.le_of_succ_le hn)
    rw [List.range_succ, List.foldl_append, List.foldl_cons, List.foldl_nil]
    set res := (List.range n).foldl
      (fun acc2 j => acc2.set i j (dotAcc lhs rhs i j)) acc with hres
    have hnw : n < rhs.width := Nat.lt_of_succ_le hn
    refine ⟨rh ▸ Matrix.set_height res i n _, rw' ▸ Matrix.set_width res i n _,
      by rw [Matrix.set_data_length, rlen], ?_⟩
    intro i' j' hj'
    by_cases hcell : i' = i ∧ j' = n
    · obtain ⟨hi', hj'n⟩ := hcell
      rw [hi', hj'n]
      rw [Matrix.get_set_self res i n _
        (by rw [rlen, hlen, rh, rw']) (by rw [rh, hh]; exact hi)
        (by rw [rw', hw]; exact hnw)]
      rw [if_pos ⟨rfl, Nat.lt_succ_self n⟩]
    · rw [Matrix.get_set_ne res _ (by rw [rw', hw]; exact hnw)
        (by rw [rw']; exact hj') (by tauto), rget i' j' hj']
      by_cases hii : i' = i
      · have hne2 : j' ≠ n := fun he => hcell ⟨hii, he⟩
        by_cases hjn : j' < n
        · rw [if_pos ⟨hii, hjn⟩, if_pos ⟨hii, by omega⟩]
        · rw [if_neg (fun hc => hjn hc.2),
            if_neg (fun hc => absurd hc.2 (by omega))]
      · rw [if_neg (fun hc => hii hc.1), if_neg (fun hc => hii hc.1)]

/-- The shape and per-cell value of `binexplore::mul`: the result is
`lhs.height × rhs.width`, with the buffer-length invariant, and every cell
`(i, j)` holds the loop-order accumulated dot product `dotAcc`. -/
theorem mul_spec [Zero α] [Add α] [Mul α] (lhs rhs : Matrix α) :
    (mul lhs rhs).height = lhs.height ∧
    (mul lhs rhs).width = rhs.width ∧
    (mul lhs rhs).data.length = lhs.height * rhs.width ∧
    ∀ i j, i < lhs.height → j < rhs.width →
      (mul lhs rhs).get i j = dotAcc lhs rhs i j := by
  have key : ∀ m, m ≤ lhs.height →
      ((List.range m).foldl
          (fun acc i =>
            (List.range rhs.width).foldl
              (fun acc2 j => acc2.set i j (dotAcc lhs rhs i j)) acc)
          (Matrix.make α lhs.height rhs.width)).height = lhs.height ∧
      ((List.range m).foldl
          (fun acc i =>
            (List.range rhs.width).foldl
              (fun acc2 j => acc2.set i j (dotAcc lhs rhs i j)) acc)
          (Matrix.make α lhs.height rhs.width)).width = rhs.width ∧
      ((List.range m).foldl
          (fun acc i =>
            (List.range rhs.width).foldl
              (fun acc2 j => acc2.set i j (dotAcc lhs rhs i j)) acc)
          (Matrix.make α lhs.height rhs.width)).data.length =
        lhs.height * rhs.width ∧
      ∀ i j, j < rhs.width →
        ((List.range m).foldl
            (fun acc i =>
              (List.range rhs.width).foldl
                (fun acc2 j => acc2.set i j (dotAcc lhs rhs i j)) acc)
            (Matrix.make α lhs.height rhs.width)).get i j =
          if i < m then dotAcc lhs rhs i j
          else (Matrix.make α lhs.height rhs.width).get i j := by
    intro m
    induction m with
    | zero =>
      intro _
      refine ⟨rfl, rfl, by simp [Matrix.make], ?_⟩
      intro i j hj
      simp
    | succ m ih =>
      intro hm
      obtain ⟨rh, rw', rlen, rget⟩ := ih (Nat.le_of_succ_le hm)
      rw [List.range_succ, List.foldl_append, List.foldl_cons, List.foldl_nil]
      set res := (List.range m).foldl
        (fun acc i =>
          (List.range rhs.width).foldl
            (fun acc2 j => acc2.set i j (dotAcc lhs rhs i j)) acc)
        (Matrix.make α lhs.height rhs.width) with hres
      have hmh : m < lhs.height := Nat.lt_of_succ_le hm
      obtain ⟨sh, sw, slen, sget⟩ := mulInner_spec lhs rhs m hmh res rh rw'
        (by rw [rlen, rh, rw']) rhs.width (Nat.le_refl _)
      refine ⟨by rw [sh, rh], by rw [sw, rw'], by rw [slen, rlen], ?_⟩
      intro i j hj
      rw [sget i j (by rw [rw']; exact hj)]
      by_cases hii : i = m
      · rw [if_pos ⟨hii, hj⟩, hii, if_pos (Nat.lt_succ_self m)]
      · rw [if_neg (fun hc => hii hc.1), rget i j hj]
        by_cases him : i < m
        · rw [if_pos him, if_pos (Nat.lt_succ_of_lt him)]
        · rw [if_neg him, if_neg (by omega)]
  obtain ⟨rh, rw', rlen, rget⟩ := key lhs.height (Nat.le_refl _)
  refine ⟨rh, rw', rlen, ?_⟩
  intro i j hi hj
  have := rget i j hj
  rw [if_pos hi] at this
  exact this

/-- Every cell of a freshly constructed (zero-filled) matrix reads `0`. -/
theorem Matrix.get_make [Zero α] (h w i j : Nat) :
    (Matrix.make α h w).get i j = 0 := by
  show (List.replicate (h * w) (0 : α)).getD (i * w + j) 0 = 0
  rw [List.getD_eq_getElem?_getD, List.getElem?_replicate]
  split
  · rfl
  · rfl

/-- A buffer entry of a well-formed matrix, read through the flat-index
decomposition `t = (t / width) * width + t % width`. -/
theorem Matrix.getElem?_data [Zero α] (M : Matrix α) {t : Nat}
    (hlen : M.data.length = M.height * M.width)
    (ht : t < M.height * M.width) :
    M.data[t]? = some (M.get (t / M.width) (t % M.width)) := by
  have hw : 0 < M.width := by
    rcases Nat.eq_zero_or_pos M.width with h0 | h0
    · rw [h0, Nat.mul_zero] at ht
      exact absurd ht (Nat.not_lt_zero t)
    · exact h0
  have hidx : t / M.width * M.width + t % M.width = t := by
    rw [Nat.mul_comm]
    exact Nat.div_add_mod t M.width
  rw [Matrix.get, hidx, List.getD_eq_getElem?_getD,
    List.getElem?_eq_getElem (by rw [hlen]; exact ht)]
  rfl

/-- Two well-formed matrices of the same shape whose in-bounds cells agree
are equal. -/
theorem Matrix.eq_of_get [Zero α] (M N : Matrix α)
    (hh : M.height = N.height) (hw : M.width = N.width)
    (hlenM : M.data.length = M.height * M.width)
    (hlenN : N.data.length = N.height * N.width)
    (hget : ∀ i j, i < M.height → j < M.width → M.get i j = N.get i j) :
    M = N := by
  obtain ⟨mh, mw, md⟩ := M
  obtain ⟨nh, nw, nd⟩ := N
  simp only at hh hw hlenM hlenN hget
  subst hh
  subst hw
  have hdata : md = nd := by
    apply List.ext_getElem?
    intro t
    by_cases ht : t < mh * mw
    · have h1 := Matrix.getElem?_data ⟨mh, mw, md⟩ hlenM ht
      have h2 := Matrix.getElem?_data ⟨mh, mw, nd⟩ hlenN ht
      simp only at h1 h2
      have hw0 : 0 < mw := by
        rcases Nat.eq_zero_or_pos mw with h0 | h0
        · rw [h0, Nat.mul_zero] at ht
          exact absurd ht (Nat.not_lt_zero t)
        · exact h0
      rw [h1, h2, hget (t / mw) (t % mw)
        ((Nat.div_lt_iff_lt_mul hw0).mpr ht) (Nat.mod_lt t hw0)]
    · rw [List.getElem?_eq_none (by rw [hlenM]; omega),
        List.getElem?_eq_none (by rw [hlenN]; omega)]
  rw [hdata]

/-- The `k × k` identity matrix of the claim "ones on the diagonal, zeros
elsewhere", laid out in the same flat row-major buffer as `Matrix`.  This
definition follows the claim's words (there is no identity constructor in
the source); C5 compares `mul` against it. -/
def identity (α : Type) [Zero α] [One α] (k : Nat) : Matrix α :=
  ⟨k, k, (List.range (k * k)).map (fun t => if t / k = t % k then 1 else 0)⟩

/-- Reading an in-bounds cell of the identity matrix. -/
theorem identity_get [Zero α] [One α] {k i j : Nat} (hi : i < k) (hj : j < k) :
    (identity α k).get i j = if i = j then 1 else 0 := by
  show ((List.range (k * k)).map
    (fun t => if t / k = t % k then (1 : α) else 0)).getD (i * k + j) 0 = _
  rw [List.getD_eq_getElem?_getD, List.getElem?_map,
    List.getElem?_range (flatIdx_lt hi hj)]
  show (if (i * k + j) / k = (i * k + j) % k then (1 : α) else 0) = _
  rw [flatIdx_div i hj, flatIdx_mod i hj]

/-- C1: for matrices `lhs : m×k` and `rhs : k×n`, `mul(lhs, rhs)` is an
`m×n` matrix whose cell `(i, j)` is the IEEE-754 single-precision sum over
`k2 < k` of `lhs[i,k2] * rhs[k2,j]` accumulated in loop order (`dotAcc` is
exactly that loop); in particular `[[1,2],[3,4]] * [[5,6],[7,8]] =
[[19,22],[43,50]]`. -/
theorem C1_mul_cell_formula :
    (∀ (lhs rhs : Matrix Fp32), lhs.width = rhs.height →
      (mul lhs rhs).height = lhs.height ∧
      (mul lhs rhs).width = rhs.width ∧
      ∀ i j, i < lhs.height → j < rhs.width →
        (mul lhs rhs).get i j = dotAcc lhs rhs i j) ∧
    mul (⟨2, 2, [.finite 1, .finite 2, .finite 3, .finite 4]⟩ : Matrix Fp32)
        ⟨2, 2, [.finite 5, .finite 6, .finite 7, .finite 8]⟩ =
      ⟨2, 2, [.finite 19, .finite 22, .finite 43, .finite 50]⟩ := by
  constructor
  · intro lhs rhs _
    obtain ⟨hh, hw, hlen, hget⟩ := mul_spec lhs rhs
    exact ⟨hh, hw, hget⟩
  · with_unfolding_all rfl

theorem C1_mul_cell_formula_witness :
    (mul (⟨2, 2, [.finite 1, .finite 2, .finite 3, .finite 4]⟩ : Matrix Fp32)
        ⟨2, 2, [.finite 5, .finite 6, .finite 7, .finite 8]⟩).height = 2 ∧
    (mul (⟨2, 2, [.finite 1, .finite 2, .finite 3, .finite 4]⟩ : Matrix Fp32)
        ⟨2, 2, [.finite 5, .finite 6, .finite 7, .finite 8]⟩).get 0 1 =
      dotAcc (⟨2, 2, [.finite 1, .finite 2, .finite 3, .finite 4]⟩ : Matrix Fp32)
        ⟨2, 2, [.finite 5, .finite 6, .finite 7, .finite 8]⟩ 0 1 := by
  obtain ⟨hh, hw, hget⟩ := C1_mul_cell_formula.1
    ⟨2, 2, [.finite 1, .finite 2, .finite 3, .finite 4]⟩
    ⟨2, 2, [.finite 5, .finite 6, .finite 7, .finite 8]⟩ rfl
  exact ⟨hh, hget 0 1 (by decide) (by decide)⟩

/-- C5 counterexample: the claim quantifies over matrices with any float
entries, but an all-infinity row is changed by multiplication with the
identity: in `[[+inf, -inf]] * I₂` the cell `(0,0)` accumulates
`+inf * 1 + (-inf) * 0 = +inf + NaN = NaN`, so the product differs
from `A`. -/
theorem C5_counterexample :
    mul (⟨1, 2, [.inf false, .inf true]⟩ : Matrix Fp32)
      (identity Fp32 2) ≠ ⟨1, 2, [.inf false, .inf true]⟩ := by
  with_unfolding_all decide

/-- C5 (amended): for a well-formed matrix `A : m×k` all of whose entries
are finite representable floats, `mul(A, I_k)` equals `A` in every cell
(each row accumulates `0 + ... + a*1 + ... + 0`, every step exact). -/
theorem C5_mul_identity (A : Matrix Fp32)
    (hlen : A.data.length = A.height * A.width)
    (hrep : ∀ i j, i < A.height → j < A.width → (A.get i j).isRep) :
    mul A (identity Fp32 A.width) = A := by
  obtain ⟨mh, mw, mlen, mget⟩ := mul_spec A (identity Fp32 A.width)
  apply Matrix.eq_of_get
  · exact mh
  · exact mw
  · rw [mlen, mh, mw]
  · exact hlen
  · intro i j hi hj
    have hiA : i < A.height := by rw [mh] at hi; exact hi
    have hjA : j < A.width := by rw [mw] at hj; exact hj
    rw [mget i j hiA hjA, dotAcc]
    have key : ∀ n, n ≤ A.width →
        (List.range n).foldl
          (fun sum k => sum + A.get i k * (identity Fp32 A.width).get k j)
          0 =
        if j < n then A.get i j else 0 := by
      intro n
      induction n with
      | zero =>
        intro _
        rfl
      | succ n ih =>
        intro hn
        rw [List.range_succ, List.foldl_append, List.foldl_cons,
          List.foldl_nil, ih (Nat.le_of_succ_le hn)]
        have hnk : n < A.width := Nat.lt_of_succ_le hn
        rw [identity_get hnk hjA]
        by_cases hjn : n = j
        · rw [if_pos hjn, if_neg (by omega), Fp32.mul_one_rep _ (hjn ▸ hrep i n hiA hnk),
            Fp32.zero_add_rep _ (hjn ▸ hrep i n hiA hnk), hjn,
            if_pos (by omega)]
        · rw [if_neg hjn, Fp32.mul_zero_fin _ (hrep i n hiA hnk).isFinite]
          by_cases hj2 : j < n
          · rw [if_pos hj2, Fp32.add_zero_rep _ (hrep i j hiA hjA),
              if_pos (by omega)]
          · rw [if_neg hj2, if_neg (by omega)]
            exact Fp32.add_zero_rep 0 rfl
    rw [key A.width (Nat.le_refl _), if_pos hjA]

theorem C5_mul_identity_witness :
    mul (⟨1, 2, [.finite 1, .finite (1 / 2)]⟩ : Matrix Fp32)
      (identity Fp32 2) = ⟨1, 2, [.finite 1, .finite (1 / 2)]⟩ :=
  C5_mul_identity ⟨1, 2, [.finite 1, .finite (1 / 2)]⟩ rfl
    (by
      intro i j hi hj
      interval_cases i <;> interval_cases j <;> with_unfolding_all decide)

/-- C6 counterexample: the claim quantifies over matrices with any float
entries, but `[[+inf]]` times the `1×1` zero matrix is `[[NaN]]`
(`inf * 0 = NaN` in IEEE-754), not the zero matrix. -/
theorem C6_counterexample :
    mul (⟨1, 1, [.inf false]⟩ : Matrix Fp32) (Matrix.make Fp32 1 1) ≠
      Matrix.make Fp32 1 1 := by
  with_unfolding_all decide

/-- C6 (amended): for a matrix `A : m×k` all of whose entries are finite
floats, multiplying by the `k×n` all-zero matrix (`Matrix.make` zero-fills)
yields the `m×n` all-zero matrix: every product is `x * 0 = 0` and the
accumulator stays `0`. -/
theorem C6_mul_zero_matrix (A : Matrix Fp32) (n : Nat)
    (hfin : ∀ i j, i < A.height → j < A.width → (A.get i j).isFinite) :
    mul A (Matrix.make Fp32 A.width n) = Matrix.make Fp32 A.height n := by
  obtain ⟨mh, mw, mlen, mget⟩ := mul_spec A (Matrix.make Fp32 A.width n)
  apply Matrix.eq_of_get
  · exact mh
  · exact mw
  · rw [mlen, mh, mw]
  · show (List.replicate (A.height * n) (0 : Fp32)).length = A.height * n
    rw [List.length_replicate]
  · intro i j hi hj
    have hiA : i < A.height := by rw [mh] at hi; exact hi
    rw [mget i j hiA (by rw [mw] at hj; exact hj), dotAcc,
      Matrix.get_make]
    have key : ∀ l : List Nat, (∀ k, k ∈ l → k < A.width) →
        l.foldl
          (fun sum k => sum + A.get i k * (Matrix.make Fp32 A.width n).get k j)
          0 = 0 := by
      intro l
      induction l with
      | nil =>
        intro _
        rfl
      | cons k l ih =>
        intro hmem
        rw [List.foldl_cons, Matrix.get_make,
          Fp32.mul_zero_fin _ (hfin i k hiA (hmem k (List.mem_cons_self k l))),
          Fp32.add_zero_rep 0 rfl]
        exact ih (fun k2 hk2 => hmem k2 (List.mem_cons_of_mem k hk2))
    exact key (List.range A.width) (fun k hk => List.mem_range.mp hk)

theorem C6_mul_zero_matrix_witness :
    mul (⟨1, 2, [.finite 3, .finite (-7)]⟩ : Matrix Fp32)
      (Matrix.make Fp32 2 2) = Matrix.make Fp32 1 2 :=
  C6_mul_zero_matrix ⟨1, 2, [.finite 3, .finite (-7)]⟩ 2
    (by
      intro i j hi hj
      interval_cases i <;> interval_cases j <;> with_unfolding_all decide)

/-- The accumulation loop over exact rationals is the finite sum of its
terms (over a commutative monoid rounding plays no role, accumulation
order is immaterial). -/
theorem dotAcc_eq_sum (lhs rhs : Matrix ℚ) (i j : Nat) :
    dotAcc lhs rhs i j =
      ∑ k in Finset.range lhs.width, lhs.get i k * rhs.get k j := by
  rw [dotAcc]
  generalize lhs.width = n
  induction n with
  | zero => rfl
  | succ n ih =>
    rw [List.range_succ, List.foldl_append, List.foldl_cons, List.foldl_nil,
      ih, Finset.sum_range_succ]

/-- C8 counterexample: over the IEEE-754 single-precision arithmetic the
implementation uses, `mul` is not associative: with `u = 1 + 2^-23` and the
`1×1` matrices `A = [[3]]`, `B = C = [[u]]`, the product `(A*B)*C` rounds
`3u` to `3 + 2^-21` and then rounds again up to `3 + 2^-20`, while
`A*(B*C)` yields `3 + 3*2^-22`. -/
theorem C8_counterexample :
    mul (mul (⟨1, 1, [.finite 3]⟩ : Matrix Fp32)
        ⟨1, 1, [.finite (8388609 / 8388608)]⟩)
      ⟨1, 1, [.finite (8388609 / 8388608)]⟩ ≠
    mul (⟨1, 1, [.finite 3]⟩ : Matrix Fp32)
      (mul (⟨1, 1, [.finite (8388609 / 8388608)]⟩ : Matrix Fp32)
        ⟨1, 1, [.finite (8388609 / 8388608)]⟩) := by
  with_unfolding_all decide

/-- C8 (amended): the same triple-loop `mul`, run on exact arithmetic (the
rationals), is associative for matrices `A : m×k`, `B : k×n`, `C : n×p`;
over IEEE-754 single precision the two sides can differ by rounding (see
the counterexample). -/
theorem C8_mul_assoc_exact (A B C : Matrix ℚ)
    (hAB : A.width = B.height) (hBC : B.width = C.height) :
    mul (mul A B) C = mul A (mul B C) := by
  obtain ⟨habh, habw, hablen, habget⟩ := mul_spec A B
  obtain ⟨hbch, hbcw, hbclen, hbcget⟩ := mul_spec B C
  obtain ⟨h1h, h1w, h1len, h1get⟩ := mul_spec (mul A B) C
  obtain ⟨h2h, h2w, h2len, h2get⟩ := mul_spec A (mul B C)
  apply Matrix.eq_of_get
  · rw [h1h, habh, h2h]
  · rw [h1w, h2w, hbcw]
  · rw [h1len, h1h, h1w]
  · rw [h2len, h2h, h2w]
  · intro i j hi hj
    have hiA : i < A.height := by rw [h1h, habh] at hi; exact hi
    have hjC : j < C.width := by rw [h1w] at hj; exact hj
    rw [h1get i j (by rw [habh]; exact hiA) hjC,
      h2get i j hiA (by rw [hbcw]; exact hjC),
      dotAcc_eq_sum, dotAcc_eq_sum, habw]
    calc
      ∑ k in Finset.range B.width, (mul A B).get i k * C.get k j
          = ∑ k in Finset.range B.width,
              ∑ k2 in Finset.range A.width,
                A.get i k2 * B.get k2 k * C.get k j := by
        refine Finset.sum_congr rfl ?_
        intro k hk
        rw [habget i k hiA (Finset.mem_range.mp hk), dotAcc_eq_sum,
          Finset.sum_mul]
      _ = ∑ k2 in Finset.range A.width,
            ∑ k in Finset.range B.width,
              A.get i k2 * (B.get k2 k * C.get k j) := by
        rw [Finset.sum_comm]
        refine Finset.sum_congr rfl ?_
        intro k2 _
        refine Finset.sum_congr rfl ?_
        intro k _
        rw [mul_assoc]
      _ = ∑ k2 in Finset.range A.width, A.get i k2 * (mul B C).get k2 j := by
        refine Finset.sum_congr rfl ?_
        intro k2 hk2
        rw [hbcget k2 j (by rw [← hAB]; exact Finset.mem_range.mp hk2) hjC,
          dotAcc_eq_sum, Finset.mul_sum]

theorem C8_mul_assoc_exact_witness :
    mul (mul (⟨1, 1, [(2 : ℚ)]⟩ : Matrix ℚ) ⟨1, 1, [(3 : ℚ)]⟩)
        ⟨1, 1, [(5 : ℚ)]⟩ =
      mul (⟨1, 1, [(2 : ℚ)]⟩ : Matrix ℚ)
        (mul (⟨1, 1, [(3 : ℚ)]⟩ : Matrix ℚ) ⟨1, 1, [(5 : ℚ)]⟩) :=
  C8_mul_assoc_exact ⟨1, 1, [(2 : ℚ)]⟩ ⟨1, 1, [(3 : ℚ)]⟩ ⟨1, 1, [(5 : ℚ)]⟩
    rfl rfl

/-- Modelled from the spec: §7 names the error kind a reimplementation of
the matrix multiply surfaces on mismatched inner dimensions. -/
inductive MulError where
  | DimensionMismatch
deriving DecidableEq, Repr

/-- Modelled from the spec: the reference `mul` performs no validation
(mismatched dimensions are undefined behavior); §4.2 prescribes that
`multiply` "should fail with a DimensionMismatch error" when
`lhs.width != rhs.height`, and otherwise computes the reference kernel. -/
def multiply [Zero α] [Add α] [Mul α] (lhs rhs : Matrix α) :
    Except MulError (Matrix α) :=
  if lhs.width = rhs.height then .ok (mul lhs rhs)
  else .error .DimensionMismatch

/-- C3: multiplying matrices with mismatched inner dimensions fails with
`DimensionMismatch` rather than producing a result matrix. -/
theorem C3_multiply_dimension_mismatch :
    ∀ (lhs rhs : Matrix Fp32), lhs.width ≠ rhs.height →
      multiply lhs rhs = .error .DimensionMismatch := by
  intro lhs rhs h
  simp [multiply, h]

theorem C3_multiply_dimension_mismatch_witness :
    multiply (⟨1, 2, [.finite 1, .finite 2]⟩ : Matrix Fp32)
        ⟨1, 1, [.finite 3]⟩ = .error .DimensionMismatch :=
  C3_multiply_dimension_mismatch ⟨1, 2, [.finite 1, .finite 2]⟩
    ⟨1, 1, [.finite 3]⟩ (by decide)

/-- Modelled from the standard library: `operator<<(std::ostream, float)`
with default settings prints a whole-valued float as its integer digits
(the only values `main` prints are 5, 7 and 9, whole and positive, where
this model is exact). -/
def fmtFloat : Fp32 → String
  | .finite q => toString q.num
  | .inf s => if s then "-inf" else "inf"
  | .nan => "nan"

/-- Model of `main` (main.cc lines 4-12): build the two fixed vectors,
compute `v1 + v2`, and for each element of the result execute
`std::cout << elem << ' '` — the element then a space — followed by
`std::cout << '\n'`, returning 0.  The value is the full standard-output
byte string paired with the exit code (`none` would be the undefined
behavior of a length mismatch, which does not occur here). -/
def cppMain : Option (String × Nat) := do
  let v1 : Vector Fp32 := ⟨[.finite 1, .finite 2, .finite 3]⟩
  let v2 : Vector Fp32 := ⟨[.finite 4, .finite 5, .finite 6]⟩
  let r ← v1.add v2
  let out := r.data.foldl (fun s e => s ++ fmtFloat e ++ " ") ""
  some (out ++ "\n", 0)

/-- C4 counterexample: the demo prints a space after each element,
including the last, so the bytes written are "5 7 9 \n" — with a trailing
space before the newline — and not the claimed exact sequence "5 7 9\n". -/
theorem C4_counterexample :
    cppMain = some ("5 7 9 \n", 0) ∧ "5 7 9 \n" ≠ "5 7 9\n" := by
  constructor
  · with_unfolding_all rfl
  · decide

/-- C4 (amended): the program writes to standard output exactly the bytes
"5 7 9 \n" (elementwise sum of (1,2,3) and (4,5,6), each element followed
by one space, then a newline) and exits with code 0. -/
theorem C4_main_output : cppMain = some ("5 7 9 \n", 0) := by
  with_unfolding_all rfl

/-- C9 heap model: to speak about object identity and mutation, the
program heap is the list of the contents of all live `Vector` objects, and
a `Vector` lvalue is an index into it. -/
abbrev Store (α : Type) : Type := List (List α)

/-- Model of `Vector::operator+=` on the heap: the loop
`for i in [0, data_.size()): data_[i] += rhs.data_[i]` re-reads both
operands through the store on every iteration (so aliased `a += a` is
represented faithfully) and writes `a` back elementwise; per the source,
the returned reference is `*this`, i.e. `ia` itself. -/
def heapPlusEq [Add α] (s : Store α) (ia ib : Nat) :
    Option (Store α × Nat) := do
  let la ← s[ia]?
  let t ← (List.range la.length).foldl
    (fun os i => do
      let st ← os
      let va ← st[ia]?
      let vb ← st[ib]?
      let x ← va[i]?
      let y ← vb[i]?
      some (st.set ia (va.set i (x + y))))
    (some s)
  some (t, ia)

/-- Model of the free `operator+` on the heap: `lhs` is passed by value,
so a fresh copy of `a`'s contents is allocated (appended to the store) and
`+=` runs on that copy against `rhs`; the returned object is the copy. -/
def heapPlus [Add α] (s : Store α) (ia ib : Nat) :
    Option (Store α × Nat) := do
  let la ← s[ia]?
  heapPlusEq (s ++ [la]) s.length ib

/-- The heap `+=` on operands `a` at `ia` and `b` at `ib` (possibly the
same index, modelling `a += a`) with `a.length ≤ b.length` succeeds,
mutates exactly the cell `ia` to the elementwise sum, and returns the
reference `ia`. -/
theorem heapPlusEq_spec [Add α] (s : Store α) (ia ib : Nat) (la lb : List α)
    (ha : s[ia]? = some la) (hb : s[ib]? = some lb)
    (hlen : la.length ≤ lb.length) :
    heapPlusEq s ia ib =
      some (s.set ia (List.zipWith (fun x y => x + y) la lb), ia) := by
  obtain ⟨hia, -⟩ := List.getElem?_eq_some.mp ha
  have key : ∀ n, n ≤ la.length →
      ∃ (st : Store α) (m : List α),
        (List.range n).foldl
          (fun os i => do
            let st ← os
            let va ← st[ia]?
            let vb ← st[ib]?
            let x ← va[i]?
            let y ← vb[i]?
            some (st.set ia (va.set i (x + y))))
          (some s) = some st ∧
        st[ia]? = some m ∧
        (∀ r, r ≠ ia → st[r]? = s[r]?) ∧
        m.length = la.length ∧
        (∀ i, i < n →
          m[i]? = (List.zipWith (fun x y => x + y) la lb)[i]?) ∧
        (∀ i, n ≤ i → m[i]? = la[i]?) := by
    intro n
    induction n with
    | zero =>
      intro _
      exact ⟨s, la, rfl, ha, fun r _ => rfl, rfl,
        fun i hi => absurd hi (Nat.not_lt_zero i), fun i _ => rfl⟩
    | succ n ih =>
      intro hn
      obtain ⟨st, m, hst, hstia, hstr, hmlen, hmlo, hmhi⟩ :=
        ih (Nat.le_of_succ_le hn)
      obtain ⟨hiast, -⟩ := List.getElem?_eq_some.mp hstia
      have hna : n < la.length := Nat.lt_of_succ_le hn
      have hnb : n < lb.length := Nat.lt_of_lt_of_le hna hlen
      have hnm : n < m.length := by rw [hmlen]; exact hna
      have hx : m[n]? = some la[n] := by
        rw [hmhi n (Nat.le_refl n)]
        exact List.getElem?_eq_getElem hna
      have hy : ∃ m2 : List α, st[ib]? = some m2 ∧ m2[n]? = some lb[n] := by
        by_cases hib : ib = ia
        · subst hib
          have hab : la = lb := by
            rw [ha] at hb
            exact Option.some.inj hb
          cases hab
          exact ⟨m, hstia, hx⟩
        · refine ⟨lb, ?_, List.getElem?_eq_getElem hnb⟩
          rw [hstr ib hib, hb]
      obtain ⟨m2, hm2, hm2n⟩ := hy
      refine ⟨st.set ia (m.set n (la[n] + lb[n])),
        m.set n (la[n] + lb[n]), ?_, ?_, ?_, ?_, ?_, ?_⟩
      · rw [List.range_succ, List.foldl_append, List.foldl_cons,
          List.foldl_nil, hst]
        simp only [Option.bind_eq_bind, Option.some_bind, hstia, hm2, hx,
          hm2n]
      · exact List.getElem?_set_self hiast
      · intro r hr
        rw [List.getElem?_set_ne (fun he => hr he.symm), hstr r hr]
      · rw [List.length_set, hmlen]
      · intro i hi
        rcases Nat.lt_succ_iff_lt_or_eq.mp hi with hi' | hi'
        · rw [List.getElem?_set_ne (by omega), hmlo i hi']
        · subst hi'
          rw [List.getElem?_set_self hnm]
          rw [List.getElem?_zipWith_eq_some.mpr
            ⟨la[i], lb[i], List.getElem?_eq_getElem hna,
              List.getElem?_eq_getElem hnb, rfl⟩]
      · intro i hi
        rw [List.getElem?_set_ne (by omega), hmhi i (by omega)]
  obtain ⟨st, m, hst, hstia, hstr, hmlen, hmlo, hmhi⟩ :=
    key la.length (Nat.le_refl _)
  have hm : m = List.zipWith (fun x y => x + y) la lb := by
    apply List.ext_getElem?
    intro i
    by_cases hi : i < la.length
    · exact hmlo i hi
    · rw [hmhi i (Nat.le_of_not_lt hi),
        List.getElem?_eq_none (Nat.le_of_not_lt hi), List.getElem?_eq_none]
      rw [List.length_zipWith]
      omega
  have hstEq : st = s.set ia (List.zipWith (fun x y => x + y) la lb) := by
    apply List.ext_getElem?
    intro r
    by_cases hr : r = ia
    · subst hr
      rw [hstia, hm, List.getElem?_set_self hia]
    · rw [hstr r hr, List.getElem?_set_ne (fun he => hr he.symm)]
  rw [heapPlusEq]
  simp only [Option.bind_eq_bind] at hst
  simp only [ha, Option.bind_eq_bind, Option.some_bind, hst, hstEq]

/-- C9: the out-of-place `a + b` has in the heap model no effect on any
existing object — in particular `a` and `b` hold the same elements
afterwards, the result living in a fresh cell at the end of the store —
while the in-place `a += b` mutates exactly `a` into the elementwise sum
and returns the reference to `a` itself (so chained addition applies to
the same object). -/
theorem C9_add_effects :
    ∀ (s : Store Fp32) (ia ib : Nat) (la lb : List Fp32),
      s[ia]? = some la → s[ib]? = some lb → la.length = lb.length →
      (∃ t : Store Fp32,
        heapPlus s ia ib = some (t, s.length) ∧
        (∀ r, r < s.length → t[r]? = s[r]?) ∧
        t[ia]? = some la ∧ t[ib]? = some lb) ∧
      (∃ t : Store Fp32,
        heapPlusEq s ia ib = some (t, ia) ∧
        t[ia]? = some (List.zipWith (fun x y => x + y) la lb) ∧
        ∀ r, r ≠ ia → t[r]? = s[r]?) := by
  intro s ia ib la lb ha hb hlen
  obtain ⟨hia, -⟩ := List.getElem?_eq_some.mp ha
  obtain ⟨hib, -⟩ := List.getElem?_eq_some.mp hb
  constructor
  · have ha1 : (s ++ [la])[s.length]? = some la :=
      List.getElem?_concat_length s la
    have hb1 : (s ++ [la])[ib]? = some lb := by
      rw [List.getElem?_append_left hib, hb]
    have hspec := heapPlusEq_spec (s ++ [la]) s.length ib la lb ha1 hb1
      (Nat.le_of_eq hlen)
    refine ⟨(s ++ [la]).set s.length
      (List.zipWith (fun x y => x + y) la lb), ?_, ?_, ?_, ?_⟩
    · rw [heapPlus]
      simp only [ha, Option.bind_eq_bind, Option.some_bind, hspec]
    · intro r hr
      rw [List.getElem?_set_ne (by omega),
        List.getElem?_append_left hr]
    · rw [List.getElem?_set_ne (by omega),
        List.getElem?_append_left hia, ha]
    · rw [List.getElem?_set_ne (by omega),
        List.getElem?_append_left hib, hb]
  · have hspec := heapPlusEq_spec s ia ib la lb ha hb (Nat.le_of_eq hlen)
    refine ⟨s.set ia (List.zipWith (fun x y => x + y) la lb), hspec,
      List.getElem?_set_self hia, ?_⟩
    intro r hr
    rw [List.getElem?_set_ne (fun he => hr he.symm)]

theorem C9_add_effects_witness :
    (heapPlus ([[Fp32.finite 1], [Fp32.finite 2]] : Store Fp32) 0 1).isSome
      = true ∧
    (heapPlusEq ([[Fp32.finite 1], [Fp32.finite 2]] : Store Fp32) 0 1).isSome
      = true := by
  obtain ⟨⟨t1, h1, -, -, -⟩, ⟨t2, h2, -, -⟩⟩ :=
    C9_add_effects [[.finite 1], [.finite 2]] 0 1 [.finite 1] [.finite 2]
      rfl rfl rfl
  constructor
  · rw [h1]
    rfl
  · rw [h2]
    rfl

end binexplore
